import Mathlib

/-!
Shallow embedding of `llvm/Support/PassNameParser.h` (PassNameParser,
FilteredPassNameParser, PassArgFilter) and proofs of the specification
claims about it.

Modelling conventions:
* A `PassInfo` keeps only the fields the header reads: `getPassArgument()`
  (a possibly-null C string, modelled as `Option String`), `getPassName()`
  and `getNormalCtor()` (only its nullness matters, modelled as a `Bool`).
* The `cl::parser` base class state is the `Values` vector, modelled as a
  `List ValType`; the `Opt` pointer is modelled by the `Bool` field `opt`
  (attached or not).
* `abort()` is modelled by returning `Except.error` with the message the
  code prints; all state-changing operations return `Except String _`.
* The virtual `ignorablePassImpl` hook is passed explicitly as a function
  argument `impl : PassInfo → Bool` (the base class uses `fun _ => false`,
  `FilteredPassNameParser` uses `fun P => !filter P`).
-/

namespace PassNameParserModel

/-- Model of the `PassInfo` fields read by `PassNameParser`. -/
structure PassInfo where
  passArgument : Option String
  passName : String
  hasNormalCtor : Bool
deriving DecidableEq

/-- The pass argument string, defaulting to the empty string when the
pointer is null (only dereferenced under a non-null guard in the code). -/
def argOf (P : PassInfo) : String := P.passArgument.getD ""

/-- Model of `PassNameParser::ignorablePass`:
`P->getPassArgument() == 0 || *P->getPassArgument() == 0 ||
 P->getNormalCtor() == 0 || ignorablePassImpl(P)`. -/
def ignorablePass (impl : PassInfo → Bool) (P : PassInfo) : Bool :=
  P.passArgument.isNone || (argOf P).isEmpty || !P.hasNormalCtor || impl P

/-- Model of the `ValType` entries of the `cl::parser` `Values` vector:
`std::pair<const char*, std::pair<const PassInfo*, const char*>>`. -/
structure ValType where
  name : String
  pass : PassInfo
  helpStr : String
deriving DecidableEq

/-- State of a `PassNameParser`: the `Opt` pointer (modelled by whether an
option is attached) and the inherited `Values` vector. -/
structure ParserState where
  opt : Bool
  values : List ValType
deriving DecidableEq

/-- Model of `cl::parser::findOption`: index of the first entry whose name
matches, or `getNumOptions()` (the length of `Values`) when absent. -/
def findOption (vals : List ValType) (name : String) : Nat :=
  vals.findIdx (fun e => e.name == name)

/-- Model of `cl::parser::addLiteralOption`: append an entry to `Values`. -/
def addLiteralOption (s : ParserState) (name : String) (P : PassInfo)
    (help : String) : ParserState :=
  { s with values := s.values ++ [⟨name, P, help⟩] }

/-- The message printed on the duplicate-argument abort path. -/
def dupMsg (arg : String) : String :=
  "Two passes with the same argument (-" ++ arg ++
    ") attempted to be registered!"

/-- Model of `PassNameParser::passRegistered` (also `passEnumerate`, which
just calls it): return unchanged if the pass is ignorable or no option is
attached; abort on a duplicate argument; otherwise add a literal option. -/
def passRegistered (impl : PassInfo → Bool) (s : ParserState) (P : PassInfo) :
    Except String ParserState :=
  if ignorablePass impl P || !s.opt then .ok s
  else if findOption s.values (argOf P) ≠ s.values.length then
    .error (dupMsg (argOf P))
  else .ok (addLiteralOption s (argOf P) P P.passName)

/-- Model of `PassNameParser::initialize`: record the option pointer, then
`enumeratePasses()` replays `passEnumerate` over every pass already in the
global registry, in registration order. -/
def attachOption (impl : PassInfo → Bool) (registry : List PassInfo)
    (s : ParserState) : Except String ParserState :=
  List.foldlM (passRegistered impl) { s with opt := true } registry

/-- Lexicographic strict comparison of character lists, the model of
`std::string::operator<` (byte-wise comparison; on the ASCII pass names
involved, code-point order and byte order agree). -/
def ltChars : List Char → List Char → Bool
  | _, [] => false
  | [], _ :: _ => true
  | a :: as, b :: bs => decide (a < b) || (a == b && ltChars as bs)

/-- Model of `PassNameParser::ValLessThan`:
`std::string(VT1.first) < std::string(VT2.first)`. -/
def ValLessThan (e1 e2 : ValType) : Bool :=
  ltChars e1.name.toList e2.name.toList

/-- The non-strict order induced by the strict-weak comparator
`ValLessThan`: `std::sort(v, ValLessThan)` yields a sequence in which
`ValLessThan` never holds of a later element toward an earlier one. -/
def valLe (e1 e2 : ValType) : Prop := ValLessThan e2 e1 = false

instance : DecidableRel valLe :=
  fun e1 e2 => inferInstanceAs (Decidable (ValLessThan e2 e1 = false))

/-- Model of `PassNameParser::printOptionInfo`: sort the live `Values`
vector in place with `ValLessThan` (through a `const_cast`), then delegate
to the base `cl::parser::printOptionInfo`, which prints `Values` in order.
`std::sort` is modelled by insertion sort with the induced non-strict
order. Returns the new state and the list of entries as printed. -/
def printOptionInfo (s : ParserState) : ParserState × List ValType :=
  let sorted := List.insertionSort valLe s.values
  ({ s with values := sorted }, sorted)

/-- Character-list prefix test (helper for the `strstr` model). -/
def isPrefixList : List Char → List Char → Bool
  | [], _ => true
  | _ :: _, [] => false
  | a :: as, b :: bs => a == b && isPrefixList as bs

/-- Does `needle` occur as a contiguous run inside the second list?
Helper for the `strstr` model. -/
def strstrFound (needle : List Char) : List Char → Bool
  | [] => isPrefixList needle []
  | c :: t => isPrefixList needle (c :: t) || strstrFound needle t

/-- Model of C `strstr(hay, needle) != NULL`: substring containment. -/
def strstr (hay needle : String) : Bool := strstrFound needle.toList hay.toList

/-- Model of `PassArgFilter<Args>::operator()`:
`return (std::strstr(Args, P.getPassArgument()));`. -/
def PassArgFilter (Args : String) (P : PassInfo) : Bool :=
  strstr Args (argOf P)

/-- Model of `FilteredPassNameParser<Filter>::ignorablePassImpl`:
`return !filter(*P);`. -/
def filteredImpl (filter : PassInfo → Bool) (P : PassInfo) : Bool :=
  !filter P

/-- Split a character list at spaces (like `String.splitOn " "`),
keeping empty pieces. Helper for the spec-side allow-list semantics. -/
def splitWS : List Char → List (List Char)
  | [] => [[]]
  | c :: t =>
    if c = ' ' then [] :: splitWS t
    else
      match splitWS t with
      | [] => [[c]]
      | w :: ws => (c :: w) :: ws

/-- Modelled from the spec: the corrected allow-list semantics the spec
prescribes for `PassArgFilter` ("token must appear as a whitespace-delimited
entry in the configured allow-list"), used to compare against the
substring-based code. -/
def specAllowsToken (Args : String) (tok : String) : Bool :=
  (splitWS Args.toList).any (fun w => w == tok.toList)

/-- System events: a pass registering with the global registry (which
notifies the listener), the option attaching (`initialize`), and rendering
help (`printOptionInfo`). -/
inductive Event where
  | reg (P : PassInfo)
  | attach
  | render
deriving DecidableEq

/-- Whole-system state: the global pass registry (in registration order)
and the parser state. -/
structure SysState where
  registry : List PassInfo
  parser : ParserState
deriving DecidableEq

/-- One system step. Registering a pass appends it to the global registry
and notifies the listener via `passRegistered`; attaching runs
`initialize`; rendering runs `printOptionInfo` (keeping its state). -/
def stepEvent (impl : PassInfo → Bool) (s : SysState) :
    Event → Except String SysState
  | .reg P => do
      let p ← passRegistered impl s.parser P
      .ok { registry := s.registry ++ [P], parser := p }
  | .attach => do
      let p ← attachOption impl s.registry s.parser
      .ok { s with parser := p }
  | .render => .ok { s with parser := (printOptionInfo s.parser).1 }

/-- The initial system state: empty registry, unattached parser with no
values (the constructor sets `Opt(0)`). -/
def initState : SysState :=
  { registry := [], parser := { opt := false, values := [] } }

/-- Run a sequence of events from the initial state. -/
def runEvents (impl : PassInfo → Bool) (evs : List Event) :
    Except String SysState :=
  evs.foldlM (stepEvent impl) initState

/-- The entry `addLiteralOption` builds from a pass. -/
def entryOf (P : PassInfo) : ValType := ⟨argOf P, P, P.passName⟩

deriving instance DecidableEq for Except

/-- The conjunction of the three base checks of `ignorablePass` (token
pointer non-null, token non-empty, constructor non-null): only when all
three hold does the `||`-chain reach `ignorablePassImpl`. -/
def baseSelectable (P : PassInfo) : Bool :=
  !P.passArgument.isNone && !(argOf P).isEmpty && P.hasNormalCtor

/-- A concrete constructible pass with token `mem2reg`. -/
def passMem2reg : PassInfo := ⟨some "mem2reg", "Promote Memory to Register", true⟩

/-- A concrete constructible pass with token `dce`. -/
def passDce : PassInfo := ⟨some "dce", "Dead Code Elimination", true⟩

/-- A concrete constructible pass with token `adce`. -/
def passAdce : PassInfo := ⟨some "adce", "Aggressive Dead Code Elimination", true⟩

/-- A second constructible pass also claiming the token `dce`. -/
def passDce2 : PassInfo := ⟨some "dce", "Dead Code Elimination v2", true⟩

/-- The base `PassNameParser` refinement hook: always `false`. -/
def implBase : PassInfo → Bool := fun _ => false

/-- An attached parser holding `mem2reg`, `dce`, `adce` in registration
order (the display-ordering example of the spec). -/
def stateC1 : ParserState :=
  { opt := true, values := [entryOf passMem2reg, entryOf passDce, entryOf passAdce] }

/-- A second copy of the same concrete state, used by the sortedness
claim. -/
def stateC6 : ParserState :=
  { opt := true, values := [entryOf passMem2reg, entryOf passDce, entryOf passAdce] }

/-- The strict comparison `ltChars` is asymmetric. -/
theorem ltChars_asymm : ∀ a b : List Char, ltChars a b = true → ltChars b a = false
  | _, [], h => by simp [ltChars] at h
  | [], _ :: _, _ => rfl
  | a :: as, b :: bs, h => by
    simp only [ltChars, Bool.or_eq_true, decide_eq_true_eq, Bool.and_eq_true,
      beq_iff_eq] at h
    simp only [ltChars, Bool.or_eq_false_iff, Bool.and_eq_false_iff,
      decide_eq_false_iff_not, beq_eq_false_iff_ne, ne_eq]
    rcases h with h | ⟨rfl, h2⟩
    · exact ⟨not_lt_of_lt h, Or.inl (ne_of_gt h)⟩
    · exact ⟨lt_irrefl a, Or.inr (ltChars_asymm as bs h2)⟩

/-- The negation of the strict comparison `ltChars` is transitive. -/
theorem ltChars_nlt_trans :
    ∀ a b c : List Char, ltChars b a = false → ltChars c b = false →
      ltChars c a = false
  | a, b, [], h1, h2 => by
    cases a with
    | nil => rfl
    | cons x xs =>
      cases b with
      | nil => simp [ltChars] at h1
      | cons y ys => simp [ltChars] at h2
  | a, b, c0 :: cs, h1, h2 => by
    cases a with
    | nil => rfl
    | cons a0 as =>
      cases b with
      | nil => simp [ltChars] at h1
      | cons b0 bs =>
        simp only [ltChars, Bool.or_eq_false_iff, Bool.and_eq_false_iff,
          decide_eq_false_iff_not, beq_eq_false_iff_ne, ne_eq] at h1 h2 ⊢
        obtain ⟨hba, h1r⟩ := h1
        obtain ⟨hcb, h2r⟩ := h2
        refine ⟨fun hca =>
          absurd hca (not_lt_of_le (le_trans (le_of_not_lt hba) (le_of_not_lt hcb))), ?_⟩
        by_cases hc : c0 = a0
        · subst hc
          have hb : b0 = c0 := le_antisymm (le_of_not_lt hcb) (le_of_not_lt hba)
          subst hb
          rcases h1r with h | h
          · exact absurd rfl h
          · rcases h2r with h' | h'
            · exact absurd rfl h'
            · exact Or.inr (ltChars_nlt_trans as bs cs h h')
        · exact Or.inl hc

instance : IsTrans ValType valLe where
  trans _ _ _ h1 h2 := ltChars_nlt_trans _ _ _ h1 h2

instance : IsTotal ValType valLe where
  total a b := by
    unfold valLe ValLessThan
    by_cases h : ltChars a.name.toList b.name.toList = true
    · exact Or.inl (ltChars_asymm _ _ h)
    · exact Or.inr (by simpa using h)

/-- The list printed by `printOptionInfo` is sorted with respect to the
order induced by `ValLessThan`. -/
theorem printOptionInfo_sorted (s : ParserState) :
    ((printOptionInfo s).2).Sorted valLe :=
  List.sorted_insertionSort valLe s.values

/-- The list printed by `printOptionInfo` is a permutation of the entries. -/
theorem printOptionInfo_perm (s : ParserState) :
    List.Perm (printOptionInfo s).2 s.values :=
  List.perm_insertionSort valLe s.values

/-- `findOption` returns `getNumOptions()` exactly when no entry carries
the name. -/
theorem findOption_eq_length_iff {vals : List ValType} {n : String} :
    findOption vals n = vals.length ↔ ∀ e ∈ vals, e.name ≠ n := by
  unfold findOption
  rw [List.findIdx_eq_length]
  simp

/-- `passRegistered` is the identity when the pass is ignorable or no
option is attached. -/
theorem pr_noop {impl : PassInfo → Bool} {s : ParserState} {P : PassInfo}
    (h : ignorablePass impl P = true ∨ s.opt = false) :
    passRegistered impl s P = .ok s := by
  unfold passRegistered
  rcases h with h | h <;> simp [h]

/-- `passRegistered` appends exactly one entry when the pass is eligible,
attached and its argument is fresh. -/
theorem pr_add {impl : PassInfo → Bool} {s : ParserState} {P : PassInfo}
    (hig : ignorablePass impl P = false) (hopt : s.opt = true)
    (hfresh : ∀ e ∈ s.values, e.name ≠ argOf P) :
    passRegistered impl s P = .ok { s with values := s.values ++ [entryOf P] } := by
  have hf : findOption s.values (argOf P) = s.values.length :=
    findOption_eq_length_iff.mpr hfresh
  simp [passRegistered, hig, hopt, hf, addLiteralOption, entryOf]

/-- `passRegistered` takes the fatal duplicate path when the pass is
eligible, attached and its argument is already present. -/
theorem pr_dup {impl : PassInfo → Bool} {s : ParserState} {P : PassInfo}
    (hig : ignorablePass impl P = false) (hopt : s.opt = true)
    (hdup : ∃ e ∈ s.values, e.name = argOf P) :
    passRegistered impl s P = .error (dupMsg (argOf P)) := by
  have hf : findOption s.values (argOf P) < s.values.length := by
    apply List.findIdx_lt_length_of_exists
    obtain ⟨e, he, hn⟩ := hdup
    exact ⟨e, he, by simp [hn]⟩
  simp [passRegistered, hig, hopt, Nat.ne_of_lt hf]

/-- The name of the entry built for a pass is its argument. -/
theorem entryOf_name (P : PassInfo) : (entryOf P).name = argOf P := rfl

/-- Folding `passRegistered` over eligible passes with fresh, pairwise
distinct arguments appends their entries in order. -/
theorem foldl_pr_ok (impl : PassInfo → Bool) (regs : List PassInfo) :
    ∀ s : ParserState, s.opt = true →
      (∀ P ∈ regs, ignorablePass impl P = false) →
      ((s.values.map ValType.name) ++ regs.map argOf).Nodup →
      List.foldlM (passRegistered impl) s regs =
        .ok { opt := true, values := s.values ++ regs.map entryOf } := by
  induction regs with
  | nil =>
    intro s hopt _ _
    cases s
    simp_all
    rfl
  | cons P regs ih =>
    intro s hopt helig hnodup
    have hdisj : (s.values.map ValType.name).Disjoint (argOf P :: regs.map argOf) := by
      rw [List.map_cons, List.nodup_append] at hnodup
      exact hnodup.2.2
    have hfresh : ∀ e ∈ s.values, e.name ≠ argOf P := by
      intro e he hne
      exact hdisj (List.mem_map_of_mem ValType.name he) (hne ▸ List.mem_cons_self _ _)
    have hnodup2 :
        ((s.values ++ [entryOf P]).map ValType.name ++ regs.map argOf).Nodup := by
      simp only [List.map_append, List.map_cons, List.map_nil, entryOf_name]
      rw [List.append_assoc]
      simpa using hnodup
    rw [List.foldlM_cons, pr_add (helig P (List.mem_cons_self _ _)) hopt hfresh]
    show List.foldlM (passRegistered impl) _ regs = _
    rw [ih { opt := s.opt, values := s.values ++ [entryOf P] } hopt
      (fun Q hQ => helig Q (List.mem_cons_of_mem _ hQ)) hnodup2]
    simp

/-- Registration events arriving while no option is attached only grow the
global registry; the parser state is untouched. -/
theorem foldl_reg_unattached (impl : PassInfo → Bool) (regs : List PassInfo) :
    ∀ sys : SysState, sys.parser.opt = false →
      List.foldlM (stepEvent impl) sys (regs.map Event.reg) =
        .ok { registry := sys.registry ++ regs, parser := sys.parser } := by
  induction regs with
  | nil => intro sys _; cases sys; simp; rfl
  | cons P regs ih =>
    intro sys hopt
    rw [List.map_cons, List.foldlM_cons]
    show (stepEvent impl sys (Event.reg P)) >>= _ = _
    rw [show stepEvent impl sys (Event.reg P) =
        .ok { registry := sys.registry ++ [P], parser := sys.parser } by
      simp [stepEvent, pr_noop (Or.inr hopt)]; rfl]
    show List.foldlM (stepEvent impl) _ (regs.map Event.reg) = _
    rw [ih { registry := sys.registry ++ [P], parser := sys.parser } hopt]
    simp

/-- Registration events arriving while attached, for eligible passes with
fresh, pairwise distinct arguments, append their entries in order. -/
theorem foldl_reg_attached (impl : PassInfo → Bool) (regs : List PassInfo) :
    ∀ sys : SysState, sys.parser.opt = true →
      (∀ P ∈ regs, ignorablePass impl P = false) →
      ((sys.parser.values.map ValType.name) ++ regs.map argOf).Nodup →
      List.foldlM (stepEvent impl) sys (regs.map Event.reg) =
        .ok { registry := sys.registry ++ regs,
              parser := { opt := true, values := sys.parser.values ++ regs.map entryOf } } := by
  induction regs with
  | nil =>
    intro sys hopt _ _
    obtain ⟨r, p⟩ := sys
    obtain ⟨o, v⟩ := p
    simp_all
    rfl
  | cons P regs ih =>
    intro sys hopt helig hnodup
    have hdisj : (sys.parser.values.map ValType.name).Disjoint (argOf P :: regs.map argOf) := by
      rw [List.map_cons, List.nodup_append] at hnodup
      exact hnodup.2.2
    have hfresh : ∀ e ∈ sys.parser.values, e.name ≠ argOf P := by
      intro e he hne
      exact hdisj (List.mem_map_of_mem ValType.name he) (hne ▸ List.mem_cons_self _ _)
    have hnodup2 :
        (((sys.parser.values ++ [entryOf P]).map ValType.name) ++ regs.map argOf).Nodup := by
      simp only [List.map_append, List.map_cons, List.map_nil, entryOf_name]
      rw [List.append_assoc]
      simpa using hnodup
    rw [List.map_cons, List.foldlM_cons]
    show (stepEvent impl sys (Event.reg P)) >>= _ = _
    rw [show stepEvent impl sys (Event.reg P) =
        .ok { registry := sys.registry ++ [P],
              parser := { sys.parser with values := sys.parser.values ++ [entryOf P] } } by
      simp [stepEvent, pr_add (helig P (List.mem_cons_self _ _)) hopt hfresh]; rfl]
    show List.foldlM (stepEvent impl) _ (regs.map Event.reg) = _
    rw [ih { registry := sys.registry ++ [P],
             parser := { sys.parser with values := sys.parser.values ++ [entryOf P] } }
      hopt (fun Q hQ => helig Q (List.mem_cons_of_mem _ hQ)) hnodup2]
    simp

/-- Running registrations before attachment, then attaching (which replays
the registry), then registrations after attachment, admits every eligible
pass exactly once, in order. -/
theorem runEvents_replay (impl : PassInfo → Bool) (before after : List PassInfo)
    (helig : ∀ P ∈ before ++ after, ignorablePass impl P = false)
    (hnodup : ((before ++ after).map argOf).Nodup) :
    runEvents impl (before.map Event.reg ++ Event.attach :: after.map Event.reg) =
      .ok { registry := before ++ after,
            parser := { opt := true, values := (before ++ after).map entryOf } } := by
  have hnb : (before.map argOf).Nodup ∧ (after.map argOf).Nodup ∧
      (before.map argOf).Disjoint (after.map argOf) := by
    rw [List.map_append, List.nodup_append] at hnodup
    exact hnodup
  unfold runEvents
  rw [List.foldlM_append, foldl_reg_unattached impl before initState rfl]
  show List.foldlM (stepEvent impl) _ (Event.attach :: after.map Event.reg) = _
  rw [List.foldlM_cons]
  have hattach :
      stepEvent impl { registry := initState.registry ++ before, parser := initState.parser }
          Event.attach =
        .ok { registry := initState.registry ++ before,
              parser := { opt := true, values := before.map entryOf } } := by
    have h1 : attachOption impl (initState.registry ++ before) initState.parser =
        .ok { opt := true, values := before.map entryOf } := by
      unfold attachOption
      have := foldl_pr_ok impl before { initState.parser with opt := true } rfl
        (fun P hP => helig P (List.mem_append_left _ hP))
        (by simpa [initState] using hnb.1)
      simpa [initState] using this
    simp [stepEvent, h1]
    rfl
  rw [hattach]
  show List.foldlM (stepEvent impl) _ (after.map Event.reg) = _
  rw [foldl_reg_attached impl after _ rfl
    (fun P hP => helig P (List.mem_append_right _ hP))
    (by
      show ((before.map entryOf).map ValType.name ++ after.map argOf).Nodup
      rw [List.map_map]
      have : ValType.name ∘ entryOf = argOf := rfl
      rw [this]
      rw [List.nodup_append]
      exact hnb)]
  simp [initState]

/-- A successful `passRegistered` keeps the entry names pairwise
distinct. -/
theorem pr_nodup {impl : PassInfo → Bool} {s : ParserState} {P : PassInfo}
    {s2 : ParserState} (h : passRegistered impl s P = .ok s2)
    (hn : (s.values.map ValType.name).Nodup) :
    (s2.values.map ValType.name).Nodup := by
  unfold passRegistered at h
  split at h
  · cases h
    exact hn
  · split at h
    · cases h
    · cases h
      rename_i hfind
      have hfresh : ∀ e ∈ s.values, e.name ≠ argOf P :=
        findOption_eq_length_iff.mp (not_ne_iff.mp hfind)
      simp only [addLiteralOption, List.map_append, List.map_cons, List.map_nil]
      rw [List.nodup_append]
      refine ⟨hn, List.nodup_singleton _, ?_⟩
      intro x hx hx1
      simp only [List.mem_singleton] at hx1
      obtain ⟨e, he, hne⟩ := List.mem_map.mp hx
      exact hfresh e he (by rw [hne, hx1])

/-- A successful fold of `passRegistered` keeps the entry names pairwise
distinct. -/
theorem foldl_pr_nodup (impl : PassInfo → Bool) (regs : List PassInfo) :
    ∀ s s2 : ParserState, List.foldlM (passRegistered impl) s regs = .ok s2 →
      (s.values.map ValType.name).Nodup → (s2.values.map ValType.name).Nodup := by
  induction regs with
  | nil =>
    intro s s2 h hn
    cases h
    exact hn
  | cons P regs ih =>
    intro s s2 h hn
    rw [List.foldlM_cons] at h
    cases hpr : passRegistered impl s P with
    | error e => rw [hpr] at h; cases h
    | ok mid =>
      rw [hpr] at h
      exact ih mid s2 h (pr_nodup hpr hn)

/-- Every successful system step keeps the entry names pairwise
distinct. -/
theorem step_nodup {impl : PassInfo → Bool} {sys sys2 : SysState} {ev : Event}
    (h : stepEvent impl sys ev = .ok sys2)
    (hn : (sys.parser.values.map ValType.name).Nodup) :
    (sys2.parser.values.map ValType.name).Nodup := by
  cases ev with
  | reg P =>
    cases hpr : passRegistered impl sys.parser P with
    | error e =>
      simp only [stepEvent, hpr] at h
      have h2 : (Except.error e : Except String SysState) = Except.ok sys2 := h
      cases h2
    | ok mid =>
      simp only [stepEvent, hpr] at h
      have h2 : Except.ok { registry := sys.registry ++ [P], parser := mid } =
          Except.ok sys2 := h
      cases h2
      exact pr_nodup hpr hn
  | attach =>
    cases hao : attachOption impl sys.registry sys.parser with
    | error e =>
      simp only [stepEvent, hao] at h
      have h2 : (Except.error e : Except String SysState) = Except.ok sys2 := h
      cases h2
    | ok mid =>
      simp only [stepEvent, hao] at h
      have h2 : Except.ok { sys with parser := mid } = Except.ok sys2 := h
      cases h2
      exact foldl_pr_nodup impl sys.registry _ mid hao hn
  | render =>
    cases h
    have hperm : List.Perm ((printOptionInfo sys.parser).1.values.map ValType.name)
        (sys.parser.values.map ValType.name) :=
      (printOptionInfo_perm sys.parser).map ValType.name
    exact hperm.nodup_iff.mpr hn

/-- A successful fold of system steps keeps the entry names pairwise
distinct. -/
theorem foldl_step_nodup (impl : PassInfo → Bool) (evs : List Event) :
    ∀ sys sys2 : SysState, List.foldlM (stepEvent impl) sys evs = .ok sys2 →
      (sys.parser.values.map ValType.name).Nodup →
      (sys2.parser.values.map ValType.name).Nodup := by
  induction evs with
  | nil =>
    intro sys sys2 h hn
    cases h
    exact hn
  | cons ev evs ih =>
    intro sys sys2 h hn
    rw [List.foldlM_cons] at h
    cases hst : stepEvent impl sys ev with
    | error e => rw [hst] at h; cases h
    | ok mid =>
      rw [hst] at h
      exact ih mid sys2 h (step_nodup hst hn)

/-- C1 counterexample: rendering help does mutate the registrar's backing
entry collection — on the attached state holding `mem2reg`, `dce`, `adce`
in registration order, the backing `Values` after `printOptionInfo` differ
from the backing `Values` before. -/
theorem printOptionInfo_mutates_backing_values :
    (printOptionInfo stateC1).1.values ≠ stateC1.values := by decide

/-- C1 (amended): rendering help sorts the registrar's backing entry
collection in place — afterwards the backing collection equals the sorted
output, so the registration order is not preserved; rendering twice in a
row produces identical sorted output and the second render changes
nothing. -/
theorem printOptionInfo_sorts_in_place_and_idempotent (s : ParserState) :
    (printOptionInfo s).1.values = (printOptionInfo s).2 ∧
    (printOptionInfo (printOptionInfo s).1).2 = (printOptionInfo s).2 ∧
    (printOptionInfo (printOptionInfo s).1).1 = (printOptionInfo s).1 := by
  refine ⟨rfl, ?_, ?_⟩
  · show List.insertionSort valLe (List.insertionSort valLe s.values) = _
    exact (List.sorted_insertionSort valLe s.values).insertionSort_eq
  · show ({ s with values := List.insertionSort valLe (List.insertionSort valLe s.values) }
      : ParserState) = _
    rw [(List.sorted_insertionSort valLe s.values).insertionSort_eq]
    rfl

/-- C1 witness: the amended statement evaluated at the concrete state
holding `mem2reg`, `dce`, `adce`. -/
theorem printOptionInfo_sorts_in_place_and_idempotent_witness :
    (printOptionInfo stateC1).1.values = (printOptionInfo stateC1).2 ∧
    (printOptionInfo (printOptionInfo stateC1).1).2 = (printOptionInfo stateC1).2 ∧
    (printOptionInfo (printOptionInfo stateC1).1).1 = (printOptionInfo stateC1).1 :=
  printOptionInfo_sorts_in_place_and_idempotent stateC1

/-- C2: the code's allow-list filter uses substring containment (`strstr`),
so against the allow-list `"optimize"` the Descriptor with token `"opt"` —
which is not a whitespace-delimited entry of the list, as the spec-side
membership test confirms — is nevertheless accepted by the filter, and the
filtered parser's eligibility check admits it. -/
theorem passArgFilter_substring_admits_nonmember :
    PassArgFilter "optimize" ⟨some "opt", "Optimizer", true⟩ = true ∧
    ignorablePass (filteredImpl (PassArgFilter "optimize"))
      ⟨some "opt", "Optimizer", true⟩ = false ∧
    specAllowsToken "optimize" "opt" = false := by decide

/-- C5: a Descriptor whose token is absent or empty, or which is not
constructible, is ignorable whatever the refinement predicate answers, and
notifying the registrar of it never changes any state. -/
theorem base_ineligible_never_admitted (impl : PassInfo → Bool) (P : PassInfo)
    (h : P.passArgument = none ∨ P.passArgument = some "" ∨ P.hasNormalCtor = false) :
    ignorablePass impl P = true ∧ ∀ s : ParserState, passRegistered impl s P = .ok s := by
  have hig : ignorablePass impl P = true := by
    have hemp : ("" : String).isEmpty = true := by decide
    unfold ignorablePass
    rcases h with h | h | h <;> simp [h, argOf, hemp]
  exact ⟨hig, fun s => pr_noop (Or.inl hig)⟩

/-- C5 witness: a null-token Descriptor, under a refinement that answers
`false` everywhere, is ignorable and leaves an attached registrar
unchanged. -/
theorem base_ineligible_never_admitted_witness :
    ignorablePass implBase ⟨none, "null token", true⟩ = true ∧
    passRegistered implBase { opt := true, values := [] } ⟨none, "null token", true⟩ =
      .ok { opt := true, values := [] } :=
  ⟨(base_ineligible_never_admitted implBase ⟨none, "null token", true⟩ (Or.inl rfl)).1,
   (base_ineligible_never_admitted implBase ⟨none, "null token", true⟩ (Or.inl rfl)).2
     { opt := true, values := [] }⟩

/-- C6: the entries presented by `printOptionInfo` are the registered
entries (a permutation of the backing collection) sorted ascending by
token under the byte-wise string comparison `ValLessThan`; on the state
holding `mem2reg`, `dce`, `adce` in registration order the presented order
is `adce`, `dce`, `mem2reg`. -/
theorem renderHelp_sorted_ascending (s : ParserState) :
    ((printOptionInfo s).2).Sorted valLe ∧
    List.Perm (printOptionInfo s).2 s.values ∧
    (printOptionInfo stateC6).2 = [entryOf passAdce, entryOf passDce, entryOf passMem2reg] :=
  ⟨printOptionInfo_sorted s, printOptionInfo_perm s, by decide⟩

/-- C7: a Descriptor notification on an ignorable Descriptor, or while no
option is attached, is a no-op: the state is returned unchanged and no
error is raised. -/
theorem notification_noop_when_ignorable_or_unattached (impl : PassInfo → Bool)
    (s : ParserState) (P : PassInfo)
    (h : ignorablePass impl P = true ∨ s.opt = false) :
    passRegistered impl s P = .ok s :=
  pr_noop h

/-- C7 witness: an eligible Descriptor delivered to an unattached
registrar is silently dropped. -/
theorem notification_noop_when_ignorable_or_unattached_witness :
    passRegistered implBase { opt := false, values := [] } passDce =
      .ok { opt := false, values := [] } :=
  notification_noop_when_ignorable_or_unattached implBase
    { opt := false, values := [] } passDce (Or.inr rfl)

/-- C9: the outcome of `ignorablePass` never depends on what the
refinement predicate answers outside Descriptors passing all three base
checks (token pointer non-null, token non-empty, constructor non-null) —
two refinements agreeing on those Descriptors give identical eligibility —
and on a Descriptor failing a base check the result is `true` without the
refinement being consulted. -/
theorem refinement_guarded_by_base_checks (impl impl' : PassInfo → Bool) (P : PassInfo)
    (hagree : ∀ Q, baseSelectable Q = true → impl Q = impl' Q) :
    ignorablePass impl P = ignorablePass impl' P ∧
    (baseSelectable P = false → ignorablePass impl P = true) := by
  constructor
  · by_cases hb : baseSelectable P = true
    · unfold ignorablePass
      rw [hagree P hb]
    · cases h1 : P.passArgument.isNone <;> cases h2 : (argOf P).isEmpty <;>
        cases h3 : P.hasNormalCtor <;> simp_all [ignorablePass, baseSelectable]
  · intro hb
    cases h1 : P.passArgument.isNone <;> cases h2 : (argOf P).isEmpty <;>
      cases h3 : P.hasNormalCtor <;> simp_all [ignorablePass, baseSelectable]

/-- C9 witness: a refinement that consults only the token-pointer nullness
agrees with the constant-false refinement on all base-selectable
Descriptors, so both give the same verdict on a null-token Descriptor, and
that verdict is ignorable. -/
theorem refinement_guarded_by_base_checks_witness :
    ignorablePass (fun Q => Q.passArgument.isNone) ⟨none, "null token", true⟩ =
      ignorablePass implBase ⟨none, "null token", true⟩ ∧
    (baseSelectable ⟨none, "null token", true⟩ = false →
      ignorablePass (fun Q => Q.passArgument.isNone) ⟨none, "null token", true⟩ = true) :=
  refinement_guarded_by_base_checks (fun Q => Q.passArgument.isNone) implBase
    ⟨none, "null token", true⟩
    (fun Q hQ => by
      unfold baseSelectable at hQ
      cases hp : Q.passArgument with
      | none => rw [hp] at hQ; simp at hQ
      | some t => simp [hp, implBase])

/-- C10: a Descriptor carrying an already-registered token is still
silently dropped — with no error — when it is itself ignorable or arrives
while no option is attached: the duplicate check is never reached. -/
theorem duplicate_skipped_when_ineligible_or_unattached (impl : PassInfo → Bool)
    (s : ParserState) (P : PassInfo)
    (h : s.opt = false ∨ ignorablePass impl P = true)
    (hdup : ∃ e ∈ s.values, e.name = argOf P) :
    passRegistered impl s P = .ok s ∧ ∀ msg, passRegistered impl s P ≠ .error msg := by
  have hok : passRegistered impl s P = .ok s := pr_noop h.symm
  exact ⟨hok, fun msg hmsg => by rw [hok] at hmsg; cases hmsg⟩

/-- C10 witness: a non-constructible second `dce` Descriptor delivered to
an attached registrar already holding `dce` is dropped without touching
the fatal duplicate path. -/
theorem duplicate_skipped_when_ineligible_or_unattached_witness :
    passRegistered implBase { opt := true, values := [entryOf passDce] }
      ⟨some "dce", "Dead Code Elimination v3", false⟩ =
      .ok { opt := true, values := [entryOf passDce] } ∧
    ∀ msg, passRegistered implBase { opt := true, values := [entryOf passDce] }
      ⟨some "dce", "Dead Code Elimination v3", false⟩ ≠ .error msg :=
  duplicate_skipped_when_ineligible_or_unattached implBase
    { opt := true, values := [entryOf passDce] }
    ⟨some "dce", "Dead Code Elimination v3", false⟩
    (Or.inr (by decide)) ⟨entryOf passDce, by decide⟩

/-- C3: for any split of a sequence of eligible Descriptors with pairwise
distinct tokens into registrations before attachment (replayed when the
option attaches) and registrations after attachment, the registrar's
selectable values afterwards are exactly those Descriptors' tokens, in
order, with no omissions and no duplicates. -/
theorem attached_registrar_values_exact (impl : PassInfo → Bool)
    (before after : List PassInfo)
    (helig : ∀ P ∈ before ++ after, ignorablePass impl P = false)
    (hnodup : ((before ++ after).map argOf).Nodup) :
    runEvents impl (before.map Event.reg ++ Event.attach :: after.map Event.reg) =
      .ok { registry := before ++ after,
            parser := { opt := true, values := (before ++ after).map entryOf } } ∧
    ((before ++ after).map entryOf).map ValType.name = (before ++ after).map argOf ∧
    (((before ++ after).map entryOf).map ValType.name).Nodup := by
  refine ⟨runEvents_replay impl before after helig hnodup, ?_, ?_⟩
  · rw [List.map_map]
    rfl
  · rw [List.map_map]
    exact hnodup

/-- C3 witness: registering `mem2reg` and `dce` before attachment and
`adce` after it yields exactly the three tokens, none dropped, none
duplicated. -/
theorem attached_registrar_values_exact_witness :
    runEvents implBase ([passMem2reg, passDce].map Event.reg ++
        Event.attach :: [passAdce].map Event.reg) =
      .ok { registry := [passMem2reg, passDce] ++ [passAdce],
            parser := { opt := true,
                        values := ([passMem2reg, passDce] ++ [passAdce]).map entryOf } } ∧
    (([passMem2reg, passDce] ++ [passAdce]).map entryOf).map ValType.name =
      ([passMem2reg, passDce] ++ [passAdce]).map argOf ∧
    ((([passMem2reg, passDce] ++ [passAdce]).map entryOf).map ValType.name).Nodup :=
  attached_registrar_values_exact implBase [passMem2reg, passDce] [passAdce]
    (by decide) (by decide)

/-- C4: delivering, to an attached registrar, an eligible Descriptor whose
token is already registered makes the run end at once in the fatal
duplicate error naming that token — whatever events would follow — so the
first entry is never silently overwritten. -/
theorem duplicate_token_fatal_abort (impl : PassInfo → Bool) (evs : List Event)
    (sys : SysState) (P : PassInfo) (rest : List Event)
    (hrun : runEvents impl evs = .ok sys) (hopt : sys.parser.opt = true)
    (helig : ignorablePass impl P = false)
    (hdup : ∃ e ∈ sys.parser.values, e.name = argOf P) :
    runEvents impl (evs ++ Event.reg P :: rest) = .error (dupMsg (argOf P)) := by
  unfold runEvents at hrun ⊢
  rw [List.foldlM_append, hrun]
  show List.foldlM (stepEvent impl) sys (Event.reg P :: rest) = _
  rw [List.foldlM_cons]
  rw [show stepEvent impl sys (Event.reg P) = .error (dupMsg (argOf P)) by
    simp [stepEvent, pr_dup helig hopt hdup]
    rfl]
  rfl

/-- C4 witness: after attaching and registering `dce`, registering a
second constructible pass with token `dce` aborts with the duplicate
message, and later events are never processed. -/
theorem duplicate_token_fatal_abort_witness :
    runEvents implBase ([Event.attach, Event.reg passDce] ++
        Event.reg passDce2 :: [Event.render]) = .error (dupMsg (argOf passDce2)) :=
  duplicate_token_fatal_abort implBase [Event.attach, Event.reg passDce]
    { registry := [passDce], parser := { opt := true, values := [entryOf passDce] } }
    passDce2 [Event.render] (by decide) rfl (by decide)
    ⟨entryOf passDce, by decide⟩

/-- C8: token uniqueness is an invariant — after any sequence of
registration, attach and render events that completes without the fatal
duplicate abort, the tokens of the registered entries are pairwise
distinct. -/
theorem tokens_nodup_invariant (impl : PassInfo → Bool) (evs : List Event)
    (sys : SysState) (h : runEvents impl evs = .ok sys) :
    (sys.parser.values.map ValType.name).Nodup :=
  foldl_step_nodup impl evs initState sys h (by simp [initState])

/-- C8 witness: a run mixing registration, attachment and rendering ends
in a state whose tokens are pairwise distinct. -/
theorem tokens_nodup_invariant_witness :
    runEvents implBase
        [Event.reg passMem2reg, Event.attach, Event.reg passDce, Event.render] =
      .ok { registry := [passMem2reg, passDce],
            parser := { opt := true,
                        values := [entryOf passDce, entryOf passMem2reg] } } ∧
    (({ registry := [passMem2reg, passDce],
        parser := { opt := true,
                    values := [entryOf passDce, entryOf passMem2reg] } }
      : SysState).parser.values.map ValType.name).Nodup :=
  ⟨by decide,
   tokens_nodup_invariant implBase
     [Event.reg passMem2reg, Event.attach, Event.reg passDce, Event.render]
     { registry := [passMem2reg, passDce],
       parser := { opt := true, values := [entryOf passDce, entryOf passMem2reg] } }
     (by decide)⟩

end PassNameParserModel
